import Mathlib

/-!
Verification of the beam-search decoding engine of `src/model.py`
(`Model.beam_search`, `Model.build_test_model` and their helpers).

Modelling conventions:
* float32 tensors of scores and lengths are modelled over `ℚ`;
* int32 token tensors are modelled over `ℕ` (reserved ids `PAD=0`, `UNK=1`,
  `BOS=2`, `EOS=3`);
* a tensor with leading dimension `batch_size * beam_size` is modelled as a
  total function from the flattened index (values beyond the tensor extent
  are never observed by the algorithm);
* the float exponent `config.test.lp_alpha` is modelled as an integer
  exponent on `ℚ` (the claims under study only exercise the shape of the
  formula and the value `lp_alpha = 0`);
* `tf.while_loop` is modelled by a well-founded recursive function
  (`decode_loop_nc` / `decode_loop_c`) together with a fuel-indexed
  evaluator (`loop_fuel`) proved equal to it, used for concrete evaluation;
* `tf.nn.top_k` (documented to order ties by lowest index) is modelled by a
  stable insertion sort on candidate indices, sorted by decreasing value.
-/

namespace BeamSearch

/-- `inf = 1e10`, the large finite negative-score sentinel of `beam_search`
(`src/model.py` line 260), used as `-inf`. -/
def inf : ℚ := 10000000000

/-- The state carried by the `tf.while_loop` in `beam_search`
(`src/model.py` lines 370-381): step counter `i`, finished flags `bias`,
token sequences `preds`, cumulative scores `scores`, penalized lengths
`lengths`, and the per-hypothesis decoder cache, all indexed by the
flattened `batch_size * beam_size` hypothesis index. -/
structure BState (C : Type) where
  i : ℕ
  bias : ℕ → Bool
  preds : ℕ → List ℕ
  scores : ℕ → ℚ
  lengths : ℕ → ℚ
  cache : ℕ → C

/-- Initial loop state (`src/model.py` lines 297-307): every hypothesis is
the single token `BOS = 2`, scores are the tile of `[0, -inf, ..., -inf]`
(so slot `t` holds `0` iff `t % beam_size = 0`), lengths `0`, finished
flags all false. -/
def init_state {C : Type} (k : ℕ) (c0 : C) : BState C where
  i := 0
  bias := fun _ => false
  preds := fun _ => [2]
  scores := fun t => if t % k = 0 then 0 else -inf
  lengths := fun _ => 0
  cache := fun _ => c0

/-- `get_bias_scores` (`src/model.py` lines 262-276): for a finished
hypothesis `j`, candidate scores are overridden by the arithmetic mask
`scores * (1 - bias) + b * bias` with `b = [0, -inf, ..., -inf]`. -/
def get_bias_scores (bias : ℕ → Bool) (sc : ℕ → ℕ → ℚ) : ℕ → ℕ → ℚ :=
  fun j c =>
    sc j c * (1 - (if bias j then (1 : ℚ) else 0))
      + (if c = 0 then 0 else -inf) * (if bias j then (1 : ℚ) else 0)

/-- `get_bias_preds` (`src/model.py` lines 278-289): for a finished
hypothesis all candidate tokens are overridden to `EOS = 3` via
`preds * (1 - bias) + bias * 3`. -/
def get_bias_preds (bias : ℕ → Bool) (tk : ℕ → ℕ → ℕ) : ℕ → ℕ → ℕ :=
  fun j c =>
    tk j c * (1 - (if bias j then 1 else 0)) + (if bias j then 1 else 0) * 3

/-- Flattened candidate cumulative scores (`src/model.py` lines 326-327):
candidate `n` (with parent `n / k` and candidate slot `n % k`) scores
parent score plus (bias-overridden) next-token log-probability. -/
def cand_scores (k : ℕ) (scores : ℕ → ℚ) (nscb : ℕ → ℕ → ℚ) : ℕ → ℚ :=
  fun n => scores (n / k) + nscb (n / k) (n % k)

/-- Flattened candidate lengths (`src/model.py` lines 330-331): parent
length plus `1` iff the (bias-overridden) candidate token is not `EOS`. -/
def cand_lengths (k : ℕ) (lengths : ℕ → ℚ) (ntkb : ℕ → ℕ → ℕ) : ℕ → ℚ :=
  fun n => lengths (n / k) + (if ntkb (n / k) (n % k) ≠ 3 then 1 else 0)

/-- Length-penalized ranking scores (`src/model.py` lines 332-333):
`lp = ((5 + length) / (5 + 1)) ^ lp_alpha`, ranking score `= score / lp`. -/
def lp_scores (α : ℤ) (cs cl : ℕ → ℚ) : ℕ → ℚ :=
  fun n => cs n / (((5 + cl n) / 6) ^ α)

/-- Insert index `m` into a list of indices kept sorted by decreasing
`v`-value; on ties the earlier (smaller) index stays first. Together with
`sortDesc` this models the deterministic ordering of `tf.nn.top_k`. -/
def insertDesc (v : ℕ → ℚ) (m : ℕ) : List ℕ → List ℕ
  | [] => [m]
  | x :: xs => if v x < v m then m :: x :: xs else x :: insertDesc v m xs

/-- All indices `0, ..., n-1` sorted by decreasing `v`-value, ties by
lowest index first. -/
def sortDesc (v : ℕ → ℚ) (n : ℕ) : List ℕ :=
  (List.range n).foldl (fun acc m => insertDesc v m acc) []

/-- `tf.nn.top_k(values, k)` (`src/model.py` line 336) on `n` candidates,
returning the `k` best indices (value-descending, ties by lowest index). -/
def topK (v : ℕ → ℚ) (n k : ℕ) : List ℕ :=
  (sortDesc v n).take k

/-- The per-batch-item top-k of `src/model.py` line 336: batch item `it`
ranks its own `beam_size * beam_size` candidates `it*k*k + m`. -/
def survivors (k : ℕ) (v : ℕ → ℚ) (it : ℕ) : List ℕ :=
  topK (fun m => v (it * (k * k) + m)) (k * k) k

/-- The gathered flattened candidate index `k_indices` of
`src/model.py` lines 337-339: survivor slot `t` (batch item `t / k`,
rank `t % k`) selects global candidate `base + m` with
`base = (t / k) * beam_size^2`. -/
def kIndex (k : ℕ) (v : ℕ → ℚ) (t : ℕ) : ℕ :=
  (t / k) * (k * k) + (survivors k v (t / k)).getD (t % k) 0

/-- One iteration of the decoding loop (`step`, `src/model.py` lines
309-359), parametrized by the next-token candidates `ntk`/`nsc` produced
by the decoder plus softmax (`test_output`) and by the updated
per-hypothesis cache `newc`. Survivor slot `t` gathers candidate data at
`k_indices t`, its parent at `k_indices t / beam_size`, appends the chosen
token, and refreshes the finished flag from the appended token. -/
def stepCore {C : Type} (k : ℕ) (α : ℤ) (ntk : ℕ → ℕ → ℕ) (nsc : ℕ → ℕ → ℚ)
    (newc : ℕ → C) (st : BState C) : BState C :=
  let nscb := get_bias_scores st.bias nsc
  let ntkb := get_bias_preds st.bias ntk
  let cs := cand_scores k st.scores nscb
  let cl := cand_lengths k st.lengths ntkb
  let v := lp_scores α cs cl
  { i := st.i + 1
    scores := fun t => cs (kIndex k v t)
    lengths := fun t => cl (kIndex k v t)
    preds := fun t => st.preds (kIndex k v t / k) ++ [ntkb (kIndex k v t / k) (kIndex k v t % k)]
    bias := fun t => ntkb (kIndex k v t / k) (kIndex k v t % k) == 3
    cache := fun t => newc (kIndex k v t / k) }

/-- Candidate tokens from the scoring function in the `use_cache=False`
branch (`src/model.py` lines 318, 320): a pure function of the prefix. -/
def nextTokF (F : List ℕ → ℕ → ℕ × ℚ) (st : BState Unit) : ℕ → ℕ → ℕ :=
  fun j c => (F (st.preds j) c).1

/-- Candidate log-probabilities from the scoring function in the
`use_cache=False` branch. -/
def nextScF (F : List ℕ → ℕ → ℕ × ℚ) (st : BState Unit) : ℕ → ℕ → ℚ :=
  fun j c => (F (st.preds j) c).2

/-- One step of the loop with `use_cache=False` (`src/model.py` line 318):
the decoder is called on the full prefix and the zero-size cache variable
is threaded through unchanged. -/
def stepNC (k : ℕ) (α : ℤ) (F : List ℕ → ℕ → ℕ × ℚ) (st : BState Unit) : BState Unit :=
  stepCore k α (nextTokF F st) (nextScF F st) st.cache st

/-- One step of the loop with `use_cache=True` (`src/model.py` lines
314-316, 352-353): the cached scorer `G` consumes the prefix and the
hypothesis's cache entry and returns the candidates and the updated cache
entry, which is gathered with the same parent indices as the prefixes. -/
def stepC {C : Type} (k : ℕ) (α : ℤ) (G : List ℕ → C → (ℕ → ℕ × ℚ) × C)
    (st : BState C) : BState C :=
  stepCore k α
    (fun j c => ((G (st.preds j) (st.cache j)).1 c).1)
    (fun j c => ((G (st.preds j) (st.cache j)).1 c).2)
    (fun j => (G (st.preds j) (st.cache j)).2)
    st

/-- The loop guard `not_finished` (`src/model.py` lines 361-368): continue
while some hypothesis is unfinished and `i ≤ min(source_length + 50,
max_target_length)`. -/
def not_finished {C : Type} (b k s maxT : ℕ) (st : BState C) : Bool :=
  ((List.range (b * k)).any fun j => !st.bias j) && decide (st.i ≤ min (s + 50) maxT)

/-- The `tf.while_loop` of `src/model.py` lines 370-381 with
`use_cache=False`: iterate `step` while `not_finished` holds. -/
def decode_loop_nc (b k s maxT : ℕ) (α : ℤ) (F : List ℕ → ℕ → ℕ × ℚ)
    (st : BState Unit) : BState Unit :=
  if not_finished b k s maxT st then
    decode_loop_nc b k s maxT α F (stepNC k α F st)
  else st
termination_by min (s + 50) maxT + 1 - st.i
decreasing_by
  rename_i h
  simp only [not_finished, Bool.and_eq_true, decide_eq_true_eq] at h
  have hi : (stepNC k α F st).i = st.i + 1 := rfl
  omega

/-- The `tf.while_loop` of `src/model.py` lines 370-381 with
`use_cache=True`. -/
def decode_loop_c {C : Type} (b k s maxT : ℕ) (α : ℤ)
    (G : List ℕ → C → (ℕ → ℕ × ℚ) × C) (st : BState C) : BState C :=
  if not_finished b k s maxT st then
    decode_loop_c b k s maxT α G (stepC k α G st)
  else st
termination_by min (s + 50) maxT + 1 - st.i
decreasing_by
  rename_i h
  simp only [not_finished, Bool.and_eq_true, decide_eq_true_eq] at h
  have hi : (stepC k α G st).i = st.i + 1 := rfl
  omega

/-- `tf.argmax` over one row of `beam_size` scores (`src/model.py` line
386): index of the maximum value, ties resolved to the lowest index. -/
def argmaxIdx (v : ℕ → ℚ) : ℕ → ℕ
  | 0 => 0
  | n + 1 => if v (argmaxIdx v n) < v n then n else argmaxIdx v n

/-- Finalization (`src/model.py` lines 383-392): per batch item, pick the
hypothesis with the highest cumulative score (`tf.argmax` over the item's
`beam_size` scores, offset by `it * beam_size`), and strip the leading
`BOS` token (`final_preds[:, 1:]`). -/
def finalize {C : Type} (k : ℕ) (st : BState C) : ℕ → List ℕ :=
  fun it => (st.preds (it * k + argmaxIdx (fun r => st.scores (it * k + r)) k)).drop 1

/-- `beam_search` with `use_cache=False` (`src/model.py` lines 257-392):
run the loop from the initial state, then finalize. `s` is the source
length `tf.shape(encoder_output)[1]`. -/
def beam_search_nc (b k s maxT : ℕ) (α : ℤ) (F : List ℕ → ℕ → ℕ × ℚ) : ℕ → List ℕ :=
  finalize k (decode_loop_nc b k s maxT α F (init_state k ()))

/-- `beam_search` with `use_cache=True` (`src/model.py` lines 257-392),
with per-hypothesis initial cache entry `c0` (the zero-length cache of
line 305). -/
def beam_search_c {C : Type} (b k s maxT : ℕ) (α : ℤ)
    (G : List ℕ → C → (ℕ → ℕ × ℚ) × C) (c0 : C) : ℕ → List ℕ :=
  finalize k (decode_loop_c b k s maxT α G (init_state k c0))

/-- `pad_to_max_length` (`src/model.py` lines 191-197): right-pad a row
with `EOS = 3` up to the given length. -/
def pad_to_max_length (row : List ℕ) (length : ℕ) : List ℕ :=
  row ++ List.replicate (length - row.length) 3

/-- The `tf.cond` guard of `build_test_model` (`src/model.py` lines
172-184): if the batch has at least one row, run the full
encode/beam-search/loss branch, otherwise return an empty prediction and
zero loss. -/
def build_test_model_branch (trueFn : List (List ℕ) → List (List ℕ) × ℚ)
    (X : List (List ℕ)) : List (List ℕ) × ℚ :=
  if 0 < X.length then trueFn X else ([], 0)

/-- Fuel-indexed evaluator for a while loop; proved below to agree with
`decode_loop_nc` / `decode_loop_c` when given enough fuel. -/
def loop_fuel {σ : Type} (c : σ → Bool) (f : σ → σ) : ℕ → σ → σ
  | 0, st => st
  | n + 1, st => if c st then loop_fuel c f n (f st) else st

/-! ### Basic loop lemmas -/

theorem stepNC_i (k : ℕ) (α : ℤ) (F : List ℕ → ℕ → ℕ × ℚ) (st : BState Unit) :
    (stepNC k α F st).i = st.i + 1 := rfl

theorem stepC_i {C : Type} (k : ℕ) (α : ℤ) (G : List ℕ → C → (ℕ → ℕ × ℚ) × C)
    (st : BState C) : (stepC k α G st).i = st.i + 1 := rfl

theorem not_finished_false_of_gt {C : Type} (b k s maxT : ℕ) (st : BState C)
    (h : ¬ st.i ≤ min (s + 50) maxT) : not_finished b k s maxT st = false := by
  simp [not_finished, h]

theorem not_finished_true_of {C : Type} (b k s maxT : ℕ) (st : BState C)
    (hbk : 1 ≤ b * k) (hbias : st.bias 0 = false) (hi : st.i ≤ min (s + 50) maxT) :
    not_finished b k s maxT st = true := by
  simp only [not_finished, Bool.and_eq_true, decide_eq_true_eq, List.any_eq_true]
  exact ⟨⟨0, List.mem_range.mpr hbk, by simp [hbias]⟩, hi⟩

theorem decode_loop_nc_eq_fuel (b k s maxT : ℕ) (α : ℤ) (F : List ℕ → ℕ → ℕ × ℚ) :
    ∀ (n : ℕ) (st : BState Unit), min (s + 50) maxT + 1 - st.i ≤ n →
      decode_loop_nc b k s maxT α F st
        = loop_fuel (not_finished b k s maxT) (stepNC k α F) n st := by
  intro n
  induction n with
  | zero =>
    intro st h
    have hgt : ¬ st.i ≤ min (s + 50) maxT := by omega
    rw [decode_loop_nc, not_finished_false_of_gt b k s maxT st hgt]
    simp [loop_fuel]
  | succ n ih =>
    intro st h
    rw [decode_loop_nc]
    by_cases hc : not_finished b k s maxT st = true
    · have hle : st.i ≤ min (s + 50) maxT := by
        simp only [not_finished, Bool.and_eq_true, decide_eq_true_eq] at hc
        exact hc.2
      rw [if_pos hc]
      simp only [loop_fuel, hc, if_true]
      exact ih (stepNC k α F st) (by rw [stepNC_i]; omega)
    · rw [if_neg hc]
      simp [loop_fuel, hc]

theorem decode_loop_c_eq_fuel {C : Type} (b k s maxT : ℕ) (α : ℤ)
    (G : List ℕ → C → (ℕ → ℕ × ℚ) × C) :
    ∀ (n : ℕ) (st : BState C), min (s + 50) maxT + 1 - st.i ≤ n →
      decode_loop_c b k s maxT α G st
        = loop_fuel (not_finished b k s maxT) (stepC k α G) n st := by
  intro n
  induction n with
  | zero =>
    intro st h
    have hgt : ¬ st.i ≤ min (s + 50) maxT := by omega
    rw [decode_loop_c, not_finished_false_of_gt b k s maxT st hgt]
    simp [loop_fuel]
  | succ n ih =>
    intro st h
    rw [decode_loop_c]
    by_cases hc : not_finished b k s maxT st = true
    · have hle : st.i ≤ min (s + 50) maxT := by
        simp only [not_finished, Bool.and_eq_true, decide_eq_true_eq] at hc
        exact hc.2
      rw [if_pos hc]
      simp only [loop_fuel, hc, if_true]
      exact ih (stepC k α G st) (by rw [stepC_i]; omega)
    · rw [if_neg hc]
      simp [loop_fuel, hc]

theorem decode_loop_nc_init (b k s maxT : ℕ) (α : ℤ) (F : List ℕ → ℕ → ℕ × ℚ) :
    decode_loop_nc b k s maxT α F (init_state k ())
      = loop_fuel (not_finished b k s maxT) (stepNC k α F)
          (min (s + 50) maxT + 1) (init_state k ()) :=
  decode_loop_nc_eq_fuel b k s maxT α F _ _ (by simp [init_state])

/-- Any property preserved by the loop body holds of the loop result. -/
theorem loop_fuel_inv {σ : Type} (c : σ → Bool) (f : σ → σ) (P : σ → Prop)
    (hf : ∀ x, P x → P (f x)) : ∀ (n : ℕ) (st : σ), P st → P (loop_fuel c f n st) := by
  intro n
  induction n with
  | zero => intro st h; exact h
  | succ n ih =>
    intro st h
    simp only [loop_fuel]
    by_cases hc : c st = true
    · simp only [hc, if_true]; exact ih (f st) (hf st h)
    · simp [hc, h]

theorem loop_fuel_i_mono {C : Type} (c : BState C → Bool) (f : BState C → BState C)
    (hf : ∀ x, (f x).i = x.i + 1) :
    ∀ (n : ℕ) (st : BState C), st.i ≤ (loop_fuel c f n st).i := by
  intro n
  induction n with
  | zero => intro st; exact le_refl _
  | succ n ih =>
    intro st
    simp only [loop_fuel]
    by_cases hc : c st = true
    · simp only [hc, if_true]
      calc st.i ≤ (f st).i := by rw [hf]; omega
        _ ≤ _ := ih (f st)
    · simp [hc]

/-! ### Top-k lemmas -/

theorem insertDesc_perm (v : ℕ → ℚ) (m : ℕ) :
    ∀ l : List ℕ, (insertDesc v m l).Perm (m :: l) := by
  intro l
  induction l with
  | nil => simp [insertDesc]
  | cons x xs ih =>
    simp only [insertDesc]
    by_cases h : v x < v m
    · simp [h]
    · simp only [h, if_false]
      exact (ih.cons x).trans (List.Perm.swap m x xs)

theorem sortDesc_perm (v : ℕ → ℚ) (n : ℕ) : (sortDesc v n).Perm (List.range n) := by
  have key : ∀ (l acc : List ℕ),
      (l.foldl (fun a m => insertDesc v m a) acc).Perm (acc ++ l) := by
    intro l
    induction l with
    | nil => intro acc; simp
    | cons x xs ih =>
      intro acc
      simp only [List.foldl_cons]
      have h1 := ih (insertDesc v x acc)
      have h2 : (insertDesc v x acc ++ xs).Perm ((x :: acc) ++ xs) :=
        (insertDesc_perm v x acc).append_right xs
      have h3 : ((x :: acc) ++ xs).Perm (acc ++ x :: xs) := by
        simpa using (@List.perm_middle _ x acc xs).symm
      exact h1.trans (h2.trans h3)
  simpa [sortDesc] using key (List.range n) []

theorem sortDesc_length (v : ℕ → ℚ) (n : ℕ) : (sortDesc v n).length = n := by
  simpa using (sortDesc_perm v n).length_eq

theorem mem_sortDesc_lt (v : ℕ → ℚ) (n : ℕ) {x : ℕ} (h : x ∈ sortDesc v n) : x < n :=
  List.mem_range.mp ((sortDesc_perm v n).mem_iff.mp h)

theorem topK_length (v : ℕ → ℚ) (n k : ℕ) (h : k ≤ n) : (topK v n k).length = k := by
  simp [topK, sortDesc_length, h]

theorem topK_mem_lt (v : ℕ → ℚ) (n k : ℕ) {x : ℕ} (h : x ∈ topK v n k) : x < n :=
  mem_sortDesc_lt v n (List.mem_of_mem_take h)

theorem survivors_length (k : ℕ) (v : ℕ → ℚ) (it : ℕ) (hk : 1 ≤ k) :
    (survivors k v it).length = k :=
  topK_length _ _ _ (Nat.le_mul_of_pos_left k hk)

theorem survivors_mem_lt (k : ℕ) (v : ℕ → ℚ) (it : ℕ) {m : ℕ}
    (h : m ∈ survivors k v it) : m < k * k :=
  topK_mem_lt _ _ _ h

theorem kIndex_range (k : ℕ) (v : ℕ → ℚ) (t : ℕ) (hk : 1 ≤ k) :
    (t / k) * (k * k) ≤ kIndex k v t ∧ kIndex k v t < (t / k) * (k * k) + k * k := by
  constructor
  · exact Nat.le_add_right _ _
  · have hlen : (t % k) < (survivors k v (t / k)).length := by
      rw [survivors_length k v _ hk]
      exact Nat.mod_lt t hk
    have hmem : (survivors k v (t / k)).getD (t % k) 0 ∈ survivors k v (t / k) := by
      rw [List.getD_eq_getElem _ _ hlen]
      exact List.getElem_mem _
    exact Nat.add_lt_add_left (survivors_mem_lt k v _ hmem) _

/-! ### Argmax lemmas -/

theorem argmaxIdx_le (v : ℕ → ℚ) : ∀ n : ℕ, argmaxIdx v n ≤ n := by
  intro n
  induction n with
  | zero => simp [argmaxIdx]
  | succ n ih =>
    simp only [argmaxIdx]
    by_cases h : v (argmaxIdx v n) < v n
    · simp [h]
    · simp only [h, if_false]; omega

theorem argmaxIdx_lt (v : ℕ → ℚ) : ∀ n : ℕ, 1 ≤ n → argmaxIdx v n < n := by
  intro n
  induction n with
  | zero => omega
  | succ n ih =>
    intro _
    simp only [argmaxIdx]
    by_cases h : v (argmaxIdx v n) < v n
    · simp [h]
    · simp only [h, if_false]
      rcases Nat.eq_zero_or_pos n with h0 | h1
      · subst h0; simp [argmaxIdx]
      · exact Nat.lt_succ_of_lt (ih h1)

theorem argmaxIdx_max (v : ℕ → ℚ) : ∀ n r : ℕ, r < n → v r ≤ v (argmaxIdx v n) := by
  intro n
  induction n with
  | zero => omega
  | succ n ih =>
    intro r hr
    simp only [argmaxIdx]
    by_cases h : v (argmaxIdx v n) < v n
    · simp only [h, if_true]
      rcases Nat.lt_succ_iff_lt_or_eq.mp hr with h' | h'
      · exact le_of_lt (lt_of_le_of_lt (ih r h') h)
      · subst h'; exact le_refl _
    · simp only [h, if_false]
      rcases Nat.lt_succ_iff_lt_or_eq.mp hr with h' | h'
      · exact ih r h'
      · subst h'; exact le_of_not_lt h

theorem argmaxIdx_tie (v : ℕ → ℚ) :
    ∀ n r : ℕ, r < n → v r = v (argmaxIdx v n) → argmaxIdx v n ≤ r := by
  intro n
  induction n with
  | zero => omega
  | succ n ih =>
    intro r hr heq
    simp only [argmaxIdx] at heq ⊢
    by_cases h : v (argmaxIdx v n) < v n
    · simp only [h, if_true] at heq ⊢
      rcases Nat.lt_succ_iff_lt_or_eq.mp hr with h' | h'
      · exact absurd (lt_of_le_of_lt (heq ▸ argmaxIdx_max v n r h') h) (lt_irrefl _)
      · omega
    · simp only [h, if_false] at heq ⊢
      rcases Nat.lt_succ_iff_lt_or_eq.mp hr with h' | h'
      · exact ih r h' heq
      · have := argmaxIdx_le v n; omega

/-! ### The ranking function and gathered indices of one `use_cache=False` step -/

/-- The length-penalized ranking values (`lp_scores` of `src/model.py`
line 333) computed by `stepNC` on state `st`. -/
def lpNC (k : ℕ) (α : ℤ) (F : List ℕ → ℕ → ℕ × ℚ) (st : BState Unit) : ℕ → ℚ :=
  lp_scores α
    (cand_scores k st.scores (get_bias_scores st.bias (nextScF F st)))
    (cand_lengths k st.lengths (get_bias_preds st.bias (nextTokF F st)))

/-- The gathered flattened candidate index (`k_indices`) used by `stepNC`
on state `st` for survivor slot `t`. -/
def piNC (k : ℕ) (α : ℤ) (F : List ℕ → ℕ → ℕ × ℚ) (st : BState Unit) : ℕ → ℕ :=
  kIndex k (lpNC k α F st)

theorem stepNC_scores_eq (k : ℕ) (α : ℤ) (F : List ℕ → ℕ → ℕ × ℚ)
    (st : BState Unit) (t : ℕ) :
    (stepNC k α F st).scores t
      = cand_scores k st.scores (get_bias_scores st.bias (nextScF F st)) (piNC k α F st t) :=
  rfl

theorem stepNC_lengths_eq (k : ℕ) (α : ℤ) (F : List ℕ → ℕ → ℕ × ℚ)
    (st : BState Unit) (t : ℕ) :
    (stepNC k α F st).lengths t
      = cand_lengths k st.lengths (get_bias_preds st.bias (nextTokF F st)) (piNC k α F st t) :=
  rfl

theorem stepNC_preds_eq (k : ℕ) (α : ℤ) (F : List ℕ → ℕ → ℕ × ℚ)
    (st : BState Unit) (t : ℕ) :
    (stepNC k α F st).preds t
      = st.preds (piNC k α F st t / k)
          ++ [get_bias_preds st.bias (nextTokF F st) (piNC k α F st t / k) (piNC k α F st t % k)] :=
  rfl

theorem stepNC_bias_eq (k : ℕ) (α : ℤ) (F : List ℕ → ℕ → ℕ × ℚ)
    (st : BState Unit) (t : ℕ) :
    (stepNC k α F st).bias t
      = (get_bias_preds st.bias (nextTokF F st) (piNC k α F st t / k) (piNC k α F st t % k) == 3) :=
  rfl

/-! ### Claim theorems -/

/-- C3: at every decoding step the pruning is a per-batch-item top-k:
every batch item selects exactly `beam_size` survivors out of its own
`beam_size * beam_size` candidates, and the gathered flattened candidate
index of every survivor slot `t` (batch item `t / beam_size`) lies inside
that item's candidate range `[item * beam_size^2, (item+1) * beam_size^2)`,
so candidates never cross batch items; the step's gathered scores are
exactly the candidate scores at these indices. -/
theorem pruning_batch_isolation (k : ℕ) (α : ℤ) (F : List ℕ → ℕ → ℕ × ℚ)
    (st : BState Unit) (it t : ℕ) (hk : 1 ≤ k) :
    (survivors k (lpNC k α F st) it).length = k
    ∧ (t / k) * (k * k) ≤ piNC k α F st t
    ∧ piNC k α F st t < (t / k) * (k * k) + k * k
    ∧ (stepNC k α F st).scores t
        = cand_scores k st.scores (get_bias_scores st.bias (nextScF F st)) (piNC k α F st t) := by
  refine ⟨survivors_length k _ it hk, ?_, ?_, rfl⟩
  · exact (kIndex_range k (lpNC k α F st) t hk).1
  · exact (kIndex_range k (lpNC k α F st) t hk).2

/-- A deterministic never-`EOS` scoring function used to instantiate
hypotheses of the claim theorems on concrete inputs. -/
def F0 : List ℕ → ℕ → ℕ × ℚ := fun _ _ => (4, 0)

/-- Witness for C3 at `beam_size = 1` on the initial state. -/
theorem pruning_batch_isolation_witness :
    (survivors 1 (lpNC 1 0 F0 (init_state 1 ())) 0).length = 1
    ∧ (0 / 1) * (1 * 1) ≤ piNC 1 0 F0 (init_state 1 ()) 0
    ∧ piNC 1 0 F0 (init_state 1 ()) 0 < (0 / 1) * (1 * 1) + 1 * 1
    ∧ (stepNC 1 0 F0 (init_state 1 ())).scores 0
        = cand_scores 1 (init_state 1 ()).scores
            (get_bias_scores (init_state 1 ()).bias (nextScF F0 (init_state 1 ())))
            (piNC 1 0 F0 (init_state 1 ()) 0) :=
  pruning_batch_isolation 1 0 F0 (init_state 1 ()) 0 0 (by decide)

/-- C5: candidate length tracking and the length-penalized ranking score:
the length carried for survivor slot `t` equals its parent's length plus
`1` exactly when the appended token is not `EOS`; the ranking score used
for pruning is the cumulative candidate score divided by
`((5 + length) / (5 + 1)) ^ lp_alpha`; and with `lp_alpha = 0` the ranking
score equals the cumulative score. -/
theorem length_and_lp_formula (k : ℕ) (α : ℤ) (F : List ℕ → ℕ → ℕ × ℚ)
    (st : BState Unit) (t : ℕ) :
    ((stepNC k α F st).lengths t
        = st.lengths (piNC k α F st t / k)
          + (if ((stepNC k α F st).preds t).getLast?.getD 0 ≠ 3 then 1 else 0))
    ∧ (∀ (lengths : ℕ → ℚ) (ntkb : ℕ → ℕ → ℕ) (n : ℕ),
        cand_lengths k lengths ntkb n
          = lengths (n / k) + (if ntkb (n / k) (n % k) ≠ 3 then 1 else 0))
    ∧ (∀ (cs cl : ℕ → ℚ) (n : ℕ), lp_scores α cs cl n = cs n / (((5 + cl n) / 6) ^ α))
    ∧ (∀ (cs cl : ℕ → ℚ) (n : ℕ), lp_scores 0 cs cl n = cs n) := by
  refine ⟨?_, fun _ _ _ => rfl, fun _ _ _ => rfl, ?_⟩
  · have hlast : ((stepNC k α F st).preds t).getLast?.getD 0
        = get_bias_preds st.bias (nextTokF F st) (piNC k α F st t / k) (piNC k α F st t % k) := by
      rw [stepNC_preds_eq]; simp
    rw [hlast, stepNC_lengths_eq]
    rfl
  · intro cs cl n
    simp [lp_scores]

/-- C6: finalization selects, for each batch item, the hypothesis with the
highest cumulative score among its `beam_size` survivors — a deterministic
argmax whose result index is in range, dominates every survivor's score,
and resolves ties to the lowest beam index — and returns its token
sequence with the leading token removed; that leading token is the `BOS`
token `2` for every state reachable by the decoding loop. -/
theorem finalization_argmax {C : Type} (k : ℕ) (st : BState C) (it : ℕ) (hk : 1 ≤ k) :
    (finalize k st it
        = (st.preds (it * k + argmaxIdx (fun r => st.scores (it * k + r)) k)).drop 1)
    ∧ argmaxIdx (fun r => st.scores (it * k + r)) k < k
    ∧ (∀ r, r < k → st.scores (it * k + r)
        ≤ st.scores (it * k + argmaxIdx (fun r => st.scores (it * k + r)) k))
    ∧ (∀ r, r < k →
        st.scores (it * k + r)
            = st.scores (it * k + argmaxIdx (fun r => st.scores (it * k + r)) k)
          → argmaxIdx (fun r => st.scores (it * k + r)) k ≤ r)
    ∧ (∀ (b s maxT : ℕ) (α : ℤ) (F : List ℕ → ℕ → ℕ × ℚ) (t : ℕ),
        ((decode_loop_nc b k s maxT α F (init_state k ())).preds t).head? = some 2)
    ∧ (∀ (b s maxT : ℕ) (α : ℤ) (F : List ℕ → ℕ → ℕ × ℚ) (it2 : ℕ),
        beam_search_nc b k s maxT α F it2
          = finalize k (decode_loop_nc b k s maxT α F (init_state k ())) it2) := by
  refine ⟨rfl, ?_, ?_, ?_, ?_, ?_⟩
  · exact argmaxIdx_lt (fun r => st.scores (it * k + r)) k hk
  · exact fun r hr => argmaxIdx_max (fun r => st.scores (it * k + r)) k r hr
  · exact fun r hr h => argmaxIdx_tie (fun r => st.scores (it * k + r)) k r hr h
  · intro b s maxT α F t
    rw [decode_loop_nc_init]
    refine loop_fuel_inv (not_finished b k s maxT) (stepNC k α F)
      (fun x => ∀ u, (x.preds u).head? = some 2) ?_ _ (init_state k ()) ?_ t
    · intro x hx u
      rw [stepNC_preds_eq]
      rw [List.head?_append_of_ne_nil]
      · exact hx _
      · intro hnil
        have := hx (piNC k α F x u / k)
        rw [hnil] at this
        simp at this
    · intro u; rfl
  · exact fun _ _ _ _ _ _ => rfl

/-- Witness for C6 at `beam_size = 1` on the initial state. -/
theorem finalization_argmax_witness :
    (finalize 1 (init_state 1 ()) 0
        = ((init_state 1 ()).preds
            (0 * 1 + argmaxIdx (fun r => (init_state 1 ()).scores (0 * 1 + r)) 1)).drop 1)
    ∧ argmaxIdx (fun r => (init_state 1 ()).scores (0 * 1 + r)) 1 < 1 := by
  have h := finalization_argmax 1 (init_state 1 ()) 0 (by decide)
  exact ⟨h.1, h.2.1⟩

/-! ### Step count of the decoding loop -/

theorem get_bias_preds_of_false (bias : ℕ → Bool) (tk : ℕ → ℕ → ℕ) (j c : ℕ)
    (h : bias j = false) : get_bias_preds bias tk j c = tk j c := by
  simp [get_bias_preds, h]

theorem stepNC_bias_false (k : ℕ) (α : ℤ) (F : List ℕ → ℕ → ℕ × ℚ)
    (hF : ∀ p c, (F p c).1 ≠ 3) (st : BState Unit)
    (h : ∀ t, st.bias t = false) : ∀ t, (stepNC k α F st).bias t = false := by
  intro t
  rw [stepNC_bias_eq, get_bias_preds_of_false _ _ _ _ (h _)]
  exact beq_eq_false_iff_ne.mpr (hF _ _)

theorem loop_fuel_count {C : Type} (b k s maxT : ℕ) (f : BState C → BState C)
    (hfi : ∀ st, (f st).i = st.i + 1)
    (hfb : ∀ st, (∀ t, st.bias t = false) → ∀ t, (f st).bias t = false)
    (hbk : 1 ≤ b * k) :
    ∀ (n : ℕ) (st : BState C), (∀ t, st.bias t = false) →
      st.i ≤ min (s + 50) maxT + 1 → min (s + 50) maxT + 1 - st.i ≤ n →
      (loop_fuel (not_finished b k s maxT) f n st).i = min (s + 50) maxT + 1 := by
  intro n
  induction n with
  | zero =>
    intro st hb hle hm
    have : st.i = min (s + 50) maxT + 1 := by omega
    simpa [loop_fuel] using this
  | succ n ih =>
    intro st hb hle hm
    simp only [loop_fuel]
    by_cases hc : st.i ≤ min (s + 50) maxT
    · rw [not_finished_true_of b k s maxT st hbk (hb 0) hc]
      simp only [if_true]
      exact ih (f st) (hfb st hb) (by rw [hfi]; omega) (by rw [hfi]; omega)
    · rw [not_finished_false_of_gt b k s maxT st hc]
      simp only [Bool.false_eq_true, if_false]
      omega

/-- C2 (amended): the loop guard continues exactly while some hypothesis is
unfinished and the counter `i` satisfies `i ≤ min(source_length + 50,
max_target_length)`; since `i` starts at `0` and is incremented at the
start of each body, a scoring function that never emits `EOS` makes the
loop execute exactly `min(source_length + 50, max_target_length) + 1`
steps (one more than the claimed bound) before stopping. -/
theorem loop_step_count (b k s maxT : ℕ) (α : ℤ) (F : List ℕ → ℕ → ℕ × ℚ)
    (hb : 1 ≤ b) (hk : 1 ≤ k) (hF : ∀ p c, (F p c).1 ≠ 3) :
    (decode_loop_nc b k s maxT α F (init_state k ())).i = min (s + 50) maxT + 1 := by
  rw [decode_loop_nc_init]
  exact loop_fuel_count b k s maxT (stepNC k α F) (stepNC_i k α F)
    (stepNC_bias_false k α F hF) (Nat.mul_pos hb hk) _ _ (fun _ => rfl)
    (by simp [init_state]) (by simp [init_state])

/-- Counterexample to C2 as stated: with source length `0`,
`max_target_length = 2` and a scoring function that never emits `EOS`, the
loop performs `3` steps, strictly more than the claimed bound
`min(0 + 50, 2) = 2`. -/
theorem loop_step_count_cex :
    (decode_loop_nc 1 1 0 2 0 F0 (init_state 1 ())).i = 3
    ∧ min (0 + 50) 2 < 3 := by
  constructor
  · rw [decode_loop_nc_eq_fuel 1 1 0 2 0 F0 5 (init_state 1 ()) (by decide)]
    decide
  · decide

/-- Witness for the amended C2 at `b = k = 1`, `s = 0`,
`max_target_length = 1` with the never-`EOS` scorer `F0`. -/
theorem loop_step_count_witness :
    (decode_loop_nc 1 1 0 1 0 F0 (init_state 1 ())).i = min (0 + 50) 1 + 1 :=
  loop_step_count 1 1 0 1 0 F0 (by decide) (by decide)
    (fun _ _ => by show (4 : ℕ) ≠ 3; decide)

/-- C9 (amended): `beam_search` performs no configuration validation at
all: for any configuration (including `max_target_length < 1`), the
decoding loop still executes at least one step from the initial state — no
configuration is rejected before decoding starts. -/
theorem config_validation_absent (b k s maxT : ℕ) (α : ℤ) (F : List ℕ → ℕ → ℕ × ℚ)
    (hb : 1 ≤ b) (hk : 1 ≤ k) :
    1 ≤ (decode_loop_nc b k s maxT α F (init_state k ())).i := by
  rw [decode_loop_nc_init]
  simp only [loop_fuel]
  rw [not_finished_true_of b k s maxT _ (Nat.mul_pos hb hk) rfl (by simp [init_state])]
  simp only [if_true]
  have h := loop_fuel_i_mono (not_finished b k s maxT) (stepNC k α F) (stepNC_i k α F)
    (min (s + 50) maxT) (stepNC k α F (init_state k ()))
  rw [stepNC_i] at h
  simpa [init_state] using h

/-- Counterexample to C9 as stated: with `max_target_length = 0` (which is
`< 1`) the configuration is not rejected — the loop still executes one
step. -/
theorem config_validation_absent_cex :
    (decode_loop_nc 1 1 5 0 0 F0 (init_state 1 ())).i = 1 := by
  rw [decode_loop_nc_eq_fuel 1 1 5 0 0 F0 2 (init_state 1 ()) (by decide)]
  decide

/-- Witness for the amended C9 on a concrete configuration. -/
theorem config_validation_absent_witness :
    1 ≤ (decode_loop_nc 2 3 4 5 0 F0 (init_state 3 ())).i :=
  config_validation_absent 2 3 4 5 0 F0 (by decide) (by decide)

/-! ### Cache / no-cache equivalence -/

/-- Observational equality of two loop states: all components agree except
possibly the cache. -/
def ObsEq {C1 C2 : Type} (x : BState C1) (y : BState C2) : Prop :=
  x.i = y.i ∧ x.bias = y.bias ∧ x.preds = y.preds ∧ x.scores = y.scores
    ∧ x.lengths = y.lengths

theorem stepCore_obsEq {C1 C2 : Type} (k : ℕ) (α : ℤ) (ntk : ℕ → ℕ → ℕ)
    (nsc : ℕ → ℕ → ℚ) (nc1 : ℕ → C1) (nc2 : ℕ → C2) (x : BState C1) (y : BState C2)
    (h : ObsEq x y) :
    ObsEq (stepCore k α ntk nsc nc1 x) (stepCore k α ntk nsc nc2 y) := by
  obtain ⟨h1, h2, h3, h4, h5⟩ := h
  refine ⟨?_, ?_, ?_, ?_, ?_⟩ <;> simp only [stepCore, h1, h2, h3, h4, h5]

theorem stepC_stepNC_obsEq {C : Type} (k : ℕ) (α : ℤ)
    (G : List ℕ → C → (ℕ → ℕ × ℚ) × C) (F : List ℕ → ℕ → ℕ × ℚ)
    (hG : ∀ p ce, (G p ce).1 = F p) (x : BState C) (y : BState Unit)
    (h : ObsEq x y) : ObsEq (stepC k α G x) (stepNC k α F y) := by
  have hpreds : x.preds = y.preds := h.2.2.1
  have hntk : (fun j c => ((G (x.preds j) (x.cache j)).1 c).1)
      = nextTokF F y := by
    funext j c
    show ((G (x.preds j) (x.cache j)).1 c).1 = (F (y.preds j) c).1
    rw [hG, hpreds]
  have hnsc : (fun j c => ((G (x.preds j) (x.cache j)).1 c).2)
      = nextScF F y := by
    funext j c
    show ((G (x.preds j) (x.cache j)).1 c).2 = (F (y.preds j) c).2
    rw [hG, hpreds]
  show ObsEq (stepCore k α _ _ _ x) (stepCore k α _ _ _ y)
  rw [hntk, hnsc]
  exact stepCore_obsEq k α _ _ _ _ x y h

theorem loop_fuel_obsEq {C : Type} (b k s maxT : ℕ) (α : ℤ)
    (G : List ℕ → C → (ℕ → ℕ × ℚ) × C) (F : List ℕ → ℕ → ℕ × ℚ)
    (hG : ∀ p ce, (G p ce).1 = F p) :
    ∀ (n : ℕ) (x : BState C) (y : BState Unit), ObsEq x y →
      ObsEq (loop_fuel (not_finished b k s maxT) (stepC k α G) n x)
        (loop_fuel (not_finished b k s maxT) (stepNC k α F) n y) := by
  intro n
  induction n with
  | zero => intro x y h; exact h
  | succ n ih =>
    intro x y h
    have hcond : not_finished b k s maxT x = not_finished b k s maxT y := by
      simp only [not_finished]
      rw [h.1, h.2.1]
    simp only [loop_fuel]
    by_cases hc : not_finished b k s maxT y = true
    · rw [hcond, hc]
      simp only [if_true]
      exact ih _ _ (stepC_stepNC_obsEq k α G F hG x y h)
    · rw [hcond]
      simp only [Bool.not_eq_true] at hc
      rw [hc]
      simpa using h

/-- C1: with a scoring function that is a pure function of the full token
prefix (formally: the cached scorer `G` returns, for every prefix and
every cache entry, the same candidate tokens and log-probabilities as the
uncached scorer `F` on that prefix), `beam_search` with `use_cache=True`
and with `use_cache=False` produce identical output token sequences and
identical final cumulative scores, for every batch size, beam size,
source length, target-length bound, length-penalty exponent and initial
cache entry: the cache changes no observable output. -/
theorem cache_noCache_equiv {C : Type} (b k s maxT : ℕ) (α : ℤ)
    (F : List ℕ → ℕ → ℕ × ℚ) (G : List ℕ → C → (ℕ → ℕ × ℚ) × C) (c0 : C)
    (hG : ∀ p ce, (G p ce).1 = F p) :
    beam_search_c b k s maxT α G c0 = beam_search_nc b k s maxT α F
    ∧ (decode_loop_c b k s maxT α G (init_state k c0)).scores
        = (decode_loop_nc b k s maxT α F (init_state k ())).scores := by
  have hinit : ObsEq (init_state k c0) (init_state k ()) := ⟨rfl, rfl, rfl, rfl, rfl⟩
  have hL : ObsEq (decode_loop_c b k s maxT α G (init_state k c0))
      (decode_loop_nc b k s maxT α F (init_state k ())) := by
    rw [decode_loop_c_eq_fuel b k s maxT α G (min (s + 50) maxT + 1) _ (by simp [init_state]),
      decode_loop_nc_eq_fuel b k s maxT α F (min (s + 50) maxT + 1) _ (by simp [init_state])]
    exact loop_fuel_obsEq b k s maxT α G F hG _ _ _ hinit
  constructor
  · funext it
    simp only [beam_search_c, beam_search_nc, finalize]
    rw [hL.2.2.1, hL.2.2.2.1]
  · exact hL.2.2.2.1

/-- A concrete cached scorer observably equal to `F0` (its cache entry
counts decoding steps). -/
def G0 : List ℕ → ℕ → (ℕ → ℕ × ℚ) × ℕ := fun p ce => (F0 p, ce + 1)

/-- Witness for C1: the cached and uncached searches agree on a concrete
configuration. -/
theorem cache_noCache_equiv_witness :
    beam_search_c 1 1 0 1 0 G0 0 = beam_search_nc 1 1 0 1 0 F0
    ∧ (decode_loop_c 1 1 0 1 0 G0 (init_state 1 0)).scores
        = (decode_loop_nc 1 1 0 1 0 F0 (init_state 1 ())).scores :=
  cache_noCache_equiv 1 1 0 1 0 F0 G0 0 (fun _ _ => rfl)

/-! ### Finished-hypothesis bias -/

/-- C4 (amended): for a finished hypothesis, the candidate overrides of
`get_bias_scores` / `get_bias_preds` hold exactly as claimed (index-0
candidate scores `0`, all other candidates score `-inf = -1e10`, every
candidate token is `EOS`); consequently every surviving continuation of a
finished hypothesis appends only the `EOS` token and remains finished, and
its cumulative score is the parent score plus `0` when it descends through
the index-0 candidate and the parent score plus `-inf` otherwise — the
score is unchanged only in the index-0 case, because the sentinel is a
finite number, not a true `-∞`. -/
theorem finished_bias_override (k : ℕ) (α : ℤ) (F : List ℕ → ℕ → ℕ × ℚ)
    (st : BState Unit) :
    (∀ j, st.bias j = true →
      (get_bias_scores st.bias (nextScF F st) j 0 = 0
      ∧ (∀ c, c ≠ 0 → get_bias_scores st.bias (nextScF F st) j c = -inf)
      ∧ (∀ c, get_bias_preds st.bias (nextTokF F st) j c = 3)))
    ∧ (∀ t, st.bias (piNC k α F st t / k) = true →
        ((stepNC k α F st).preds t = st.preds (piNC k α F st t / k) ++ [3]
        ∧ (stepNC k α F st).bias t = true
        ∧ (stepNC k α F st).scores t
            = st.scores (piNC k α F st t / k)
              + (if piNC k α F st t % k = 0 then 0 else -inf))) := by
  constructor
  · intro j hj
    refine ⟨?_, ?_, ?_⟩
    · simp [get_bias_scores, hj]
    · intro c hc; simp [get_bias_scores, hj, hc]
    · intro c; simp [get_bias_preds, hj]
  · intro t ht
    have htok : get_bias_preds st.bias (nextTokF F st)
        (piNC k α F st t / k) (piNC k α F st t % k) = 3 := by
      simp [get_bias_preds, ht]
    refine ⟨?_, ?_, ?_⟩
    · rw [stepNC_preds_eq, htok]
    · rw [stepNC_bias_eq, htok]; rfl
    · rw [stepNC_scores_eq]
      show st.scores (piNC k α F st t / k)
          + get_bias_scores st.bias (nextScF F st) (piNC k α F st t / k) (piNC k α F st t % k)
        = _
      rw [show get_bias_scores st.bias (nextScF F st) (piNC k α F st t / k)
            (piNC k α F st t % k) = (if piNC k α F st t % k = 0 then 0 else -inf) by
        simp [get_bias_scores, ht]]

/-- A concrete state in which both hypotheses of the single batch item are
finished, the second with cumulative score below `-inf`; used to exhibit a
surviving continuation of a finished hypothesis whose score changes. -/
def stCex : BState Unit where
  i := 1
  bias := fun _ => true
  preds := fun _ => [2, 3]
  scores := fun t => if t = 0 then 0 else -20000000000
  lengths := fun _ => 1
  cache := fun _ => ()

/-- An arbitrary scoring function for the C4 counterexample (its output is
irrelevant: both hypotheses are finished, so the bias overrides apply). -/
def F4 : List ℕ → ℕ → ℕ × ℚ := fun _ _ => (7, 0)

/-- Counterexample to C4 as stated: with `beam_size = 2`, survivor slot `1`
is a continuation of the finished hypothesis `0`, yet its cumulative score
changes from `0` to `-1e10` (the `-inf`-sentinel candidate of a finished
hypothesis survived pruning because the competing hypothesis's score was
below `-1e10`). -/
theorem piNC_stCex : piNC 2 0 F4 stCex 1 = 1 := by
  norm_num [piNC, kIndex, survivors, topK, sortDesc, insertDesc, lpNC, lp_scores,
    cand_scores, cand_lengths, get_bias_scores, get_bias_preds, nextScF, nextTokF,
    stCex, F4, inf, List.range_succ]

theorem finished_bias_override_cex :
    stCex.bias (piNC 2 0 F4 stCex 1 / 2) = true
    ∧ (stepNC 2 0 F4 stCex).preds 1 = stCex.preds (piNC 2 0 F4 stCex 1 / 2) ++ [3]
    ∧ (stepNC 2 0 F4 stCex).scores 1 ≠ stCex.scores (piNC 2 0 F4 stCex 1 / 2) := by
  refine ⟨rfl, ?_, ?_⟩
  · rw [stepNC_preds_eq, piNC_stCex]
    rfl
  · rw [stepNC_scores_eq, piNC_stCex]
    norm_num [cand_scores, get_bias_scores, nextScF, stCex, F4, inf]

/-- A concrete one-beam state whose single hypothesis is finished. -/
def stFin : BState Unit where
  i := 1
  bias := fun _ => true
  preds := fun _ => [2, 3]
  scores := fun _ => 0
  lengths := fun _ => 0
  cache := fun _ => ()

/-- Witness for the amended C4 on a concrete finished state. -/
theorem finished_bias_override_witness :
    get_bias_scores stFin.bias (nextScF F0 stFin) 0 0 = 0
    ∧ (stepNC 1 0 F0 stFin).preds 0 = stFin.preds (piNC 1 0 F0 stFin 0 / 1) ++ [3]
    ∧ (stepNC 1 0 F0 stFin).bias 0 = true := by
  have h := finished_bias_override 1 0 F0 stFin
  exact ⟨(h.1 0 rfl).1, (h.2 0 rfl).1, (h.2 0 rfl).2.1⟩

/-! ### Non-finite scores

The score arithmetic of `src/model.py` lines 320-336 re-modelled with the
float domain refined to `Option ℚ`, where `none` models an IEEE-754 NaN:
every arithmetic operation with a NaN operand yields NaN (in particular
`NaN * 0 = NaN`, so even the finished-hypothesis mask does not absorb it).
-/

/-- IEEE-style addition: NaN-propagating. -/
def fAdd : Option ℚ → Option ℚ → Option ℚ
  | some a, some b => some (a + b)
  | _, _ => none

/-- IEEE-style multiplication: NaN-propagating (even by zero). -/
def fMul : Option ℚ → Option ℚ → Option ℚ
  | some a, some b => some (a * b)
  | _, _ => none

/-- IEEE-style division: NaN-propagating. -/
def fDiv : Option ℚ → Option ℚ → Option ℚ
  | some a, some b => some (a / b)
  | _, _ => none

/-- `get_bias_scores` (`src/model.py` lines 262-276) over NaN-aware
scores: the same mask arithmetic `scores * (1 - bias) + b * bias`. -/
def get_bias_scores_f (bias : ℕ → Bool) (sc : ℕ → ℕ → Option ℚ) : ℕ → ℕ → Option ℚ :=
  fun j c =>
    fAdd (fMul (sc j c) (some (1 - (if bias j then (1 : ℚ) else 0))))
      (fMul (some (if c = 0 then (0 : ℚ) else -inf)) (some (if bias j then (1 : ℚ) else 0)))

/-- Cumulative candidate scores (`src/model.py` lines 326-327) over
NaN-aware scores. -/
def cand_scores_f (k : ℕ) (scores : ℕ → Option ℚ) (nscb : ℕ → ℕ → Option ℚ) : ℕ → Option ℚ :=
  fun n => fAdd (scores (n / k)) (nscb (n / k) (n % k))

/-- Length-penalized ranking scores (`src/model.py` lines 332-333) over
NaN-aware scores (lengths are produced by integer comparisons and are
never NaN). -/
def lp_scores_f (α : ℤ) (cs : ℕ → Option ℚ) (cl : ℕ → ℚ) : ℕ → Option ℚ :=
  fun n => fDiv (cs n) (some (((5 + cl n) / 6) ^ α))

/-- C7 (amended): `beam_search` performs no substitution of non-finite
scores: a NaN log-probability returned by the scoring function passes
unchanged through the finished-hypothesis mask (even multiplication by
zero does not absorb a NaN), enters the cumulative-score accumulation, and
reaches the input of the top-k pruning as NaN — it is never replaced by
the negative sentinel. -/
theorem nan_propagation (k : ℕ) (α : ℤ) (bias : ℕ → Bool) (scores : ℕ → Option ℚ)
    (nsc : ℕ → ℕ → Option ℚ) (cl : ℕ → ℚ) (n : ℕ)
    (h : nsc (n / k) (n % k) = none) :
    get_bias_scores_f bias nsc (n / k) (n % k) = none
    ∧ cand_scores_f k scores (get_bias_scores_f bias nsc) n = none
    ∧ lp_scores_f α (cand_scores_f k scores (get_bias_scores_f bias nsc)) cl n = none := by
  have h1 : get_bias_scores_f bias nsc (n / k) (n % k) = none := by
    simp [get_bias_scores_f, h, fMul, fAdd]
  have h2 : cand_scores_f k scores (get_bias_scores_f bias nsc) n = none := by
    simp only [cand_scores_f, h1]
    cases scores (n / k) <;> simp [fAdd]
  refine ⟨h1, h2, ?_⟩
  simp [lp_scores_f, h2, fDiv]

/-- Counterexample to C7 as stated: a NaN candidate log-probability is not
replaced by the negative sentinel `-1e10` before ranking — the value
entering the top-k comparison is still NaN. -/
theorem nan_propagation_cex :
    lp_scores_f 0
        (cand_scores_f 1 (fun _ => some 0)
          (get_bias_scores_f (fun _ => false) (fun _ _ => none)))
        (fun _ => 0) 0 = none
    ∧ (none : Option ℚ) ≠ some (-inf) := by
  refine ⟨?_, by simp⟩
  simp [lp_scores_f, cand_scores_f, get_bias_scores_f, fAdd, fMul, fDiv]

/-- Witness for the amended C7 on concrete inputs. -/
theorem nan_propagation_witness :
    get_bias_scores_f (fun _ => false) (fun _ _ => none) (5 / 2) (5 % 2) = none
    ∧ cand_scores_f 2 (fun _ => some 1)
        (get_bias_scores_f (fun _ => false) (fun _ _ => none)) 5 = none
    ∧ lp_scores_f 1
        (cand_scores_f 2 (fun _ => some 1)
          (get_bias_scores_f (fun _ => false) (fun _ _ => none)))
        (fun _ => 3) 5 = none :=
  nan_propagation 2 1 (fun _ => false) (fun _ => some 1) (fun _ _ => none) (fun _ => 3) 5 rfl

/-! ### Degenerate input handling -/

/-- The concrete `true_fn` marker used in the C8 counterexample: a
decoding branch whose output is recognisably not the bypass value. -/
def trueFn8 : List (List ℕ) → List (List ℕ) × ℚ := fun _ => ([[9]], 5)

/-- C8 (amended): the `tf.cond` of `build_test_model` bypasses decoding
only when the batch has zero rows (`tf.shape(X)[0] = 0`), returning the
empty prediction and loss `0`; any nonempty batch — including one whose
items have zero-length sequences — takes the decoding branch, invoking
the encoder/scoring path on it. -/
theorem empty_input_bypass (f : List (List ℕ) → List (List ℕ) × ℚ) :
    build_test_model_branch f [] = ([], 0)
    ∧ (∀ X, 0 < X.length → build_test_model_branch f X = f X) := by
  constructor
  · simp [build_test_model_branch]
  · intro X hX
    simp [build_test_model_branch, hX]

/-- Counterexample to C8 as stated: a batch consisting of one zero-length
item is not bypassed — the decoding branch runs (its marker output is
returned) and the result is not the empty prediction with zero loss. -/
theorem empty_input_bypass_cex :
    ([([] : List ℕ)] : List (List ℕ)).length = 1
    ∧ build_test_model_branch trueFn8 [[]] = ([[9]], 5)
    ∧ build_test_model_branch trueFn8 [[]] ≠ (([] : List (List ℕ)), (0 : ℚ)) := by
  refine ⟨rfl, rfl, ?_⟩
  intro h
  simpa [trueFn8, build_test_model_branch] using congrArg Prod.fst h

/-- Witness for the amended C8 on concrete batches. -/
theorem empty_input_bypass_witness :
    build_test_model_branch trueFn8 [] = ([], 0)
    ∧ build_test_model_branch trueFn8 [[4]] = trueFn8 [[4]] := by
  have h := empty_input_bypass trueFn8
  exact ⟨h.1, h.2 [[4]] (by decide)⟩

/-! ### Rectangular output and trailing `EOS` -/

/-- Every token following an `EOS` inside the sequence is itself `EOS`. -/
def eosClosed (l : List ℕ) : Prop :=
  ∀ a q : ℕ, a ≤ q → q < l.length → l.getD a 0 = 3 → l.getD q 0 = 3

theorem getLast?_getD_eq (l : List ℕ) (h : l ≠ []) :
    l.getLast?.getD 0 = l.getD (l.length - 1) 0 := by
  have hlen : l.length - 1 < l.length := by
    cases l with
    | nil => exact absurd rfl h
    | cons x xs => simp
  rw [List.getD_eq_getElem _ _ hlen, List.getLast?_eq_getElem?,
    List.getElem?_eq_getElem hlen]
  rfl

/-- The invariant of the decoding loop underlying C10: every hypothesis
sequence is nonempty, is `EOS`-closed, has the finished flag equal to
"last token is `EOS`", and has length equal to the step counter plus one. -/
def EosInv (st : BState Unit) : Prop :=
  ∀ t, st.preds t ≠ [] ∧ eosClosed (st.preds t)
    ∧ st.bias t = ((st.preds t).getLast?.getD 0 == 3)
    ∧ (st.preds t).length = st.i + 1

theorem stepNC_eosInv (k : ℕ) (α : ℤ) (F : List ℕ → ℕ → ℕ × ℚ) (st : BState Unit)
    (h : EosInv st) : EosInv (stepNC k α F st) := by
  intro t
  obtain ⟨hne, hcl, hb, hlen⟩ := h (piNC k α F st t / k)
  rw [stepNC_preds_eq, stepNC_bias_eq, stepNC_i]
  refine ⟨by simp, ?_, ?_, by simp [hlen]⟩
  · intro a q hle hq h3
    set l := st.preds (piNC k α F st t / k) with hl
    set tok := get_bias_preds st.bias (nextTokF F st)
      (piNC k α F st t / k) (piNC k α F st t % k) with htok
    rw [List.length_append, List.length_singleton] at hq
    by_cases hql : q < l.length
    · have hal : a < l.length := lt_of_le_of_lt hle hql
      rw [List.getD_append _ _ _ _ hal] at h3
      rw [List.getD_append _ _ _ _ hql]
      exact hcl a q hle hql h3
    · have hqe : q = l.length := by omega
      rw [List.getD_append_right _ _ _ _ (by omega), hqe, Nat.sub_self]
      by_cases hae : a < l.length
      · rw [List.getD_append _ _ _ _ hae] at h3
        have hlast : l.getD (l.length - 1) 0 = 3 :=
          hcl a (l.length - 1) (by omega) (by omega) h3
        have hbt : st.bias (piNC k α F st t / k) = true := by
          rw [hb, getLast?_getD_eq l hne, hlast]
          rfl
        simp [htok, get_bias_preds, hbt]
      · have hae' : a = l.length := by omega
        rw [List.getD_append_right _ _ _ _ (by omega), hae', Nat.sub_self] at h3
        exact h3
  · simp

theorem decode_loop_nc_eosInv (b k s maxT : ℕ) (α : ℤ) (F : List ℕ → ℕ → ℕ × ℚ) :
    EosInv (decode_loop_nc b k s maxT α F (init_state k ())) := by
  rw [decode_loop_nc_init]
  refine loop_fuel_inv _ _ EosInv (stepNC_eosInv k α F) _ _ ?_
  intro t
  refine ⟨by simp [init_state], ?_, rfl, rfl⟩
  intro a q hle hq h3
  have ha : a = 0 := by
    simp only [init_state, List.length_cons, List.length_nil] at hq
    omega
  subst ha
  simp [init_state, List.getD] at h3

theorem eosClosed_drop_one (l : List ℕ) (h : eosClosed l) : eosClosed (l.drop 1) := by
  intro a q hle hq h3
  have hq' : q < l.length - 1 := by simpa using hq
  have hg : ∀ n, n < l.length - 1 → (l.drop 1).getD n 0 = l.getD (n + 1) 0 := by
    intro n hn
    rw [List.getD_eq_getElem _ _ (by simpa using hn),
      List.getD_eq_getElem _ _ (by omega)]
    simp [List.getElem_drop]
  rw [hg q hq']
  refine h (a + 1) (q + 1) (by omega) (by omega) ?_
  rw [← hg a (by omega)]
  exact h3

/-- C10: the decode output is rectangular: every step appends exactly one
token to every hypothesis, so after the loop every hypothesis sequence has
length equal to the executed step count plus one; a hypothesis that
finished early repeats `EOS` in every later position (its sequence is
`EOS`-closed), and the finalized predictions keep these trailing `EOS`
tokens (each row has the common length "steps executed" and is
`EOS`-closed, not truncated at its first `EOS`); `pad_to_max_length` also
only appends `EOS` tokens. -/
theorem rectangular_output (b k s maxT : ℕ) (α : ℤ) (F : List ℕ → ℕ → ℕ × ℚ) :
    (∀ (st : BState Unit) (t : ℕ),
        ((stepNC k α F st).preds t).length = (st.preds (piNC k α F st t / k)).length + 1)
    ∧ (∀ t, ((decode_loop_nc b k s maxT α F (init_state k ())).preds t).length
        = (decode_loop_nc b k s maxT α F (init_state k ())).i + 1)
    ∧ (∀ t, eosClosed ((decode_loop_nc b k s maxT α F (init_state k ())).preds t))
    ∧ (∀ it, (beam_search_nc b k s maxT α F it).length
          = (decode_loop_nc b k s maxT α F (init_state k ())).i
        ∧ eosClosed (beam_search_nc b k s maxT α F it))
    ∧ (∀ (row : List ℕ) (L : ℕ),
        (pad_to_max_length row L).length = row.length + (L - row.length)
        ∧ ∀ p, row.length ≤ p → p < row.length + (L - row.length) →
            (pad_to_max_length row L).getD p 0 = 3) := by
  have hinv := decode_loop_nc_eosInv b k s maxT α F
  refine ⟨?_, ?_, ?_, ?_, ?_⟩
  · intro st t
    rw [stepNC_preds_eq]
    simp
  · intro t
    exact (hinv t).2.2.2
  · intro t
    exact (hinv t).2.1
  · intro it
    have hbs : beam_search_nc b k s maxT α F it
        = ((decode_loop_nc b k s maxT α F (init_state k ())).preds
            (it * k + argmaxIdx
              (fun r => (decode_loop_nc b k s maxT α F (init_state k ())).scores
                (it * k + r)) k)).drop 1 := rfl
    constructor
    · rw [hbs, List.length_drop, (hinv _).2.2.2]
      omega
    · rw [hbs]
      exact eosClosed_drop_one _ ((hinv _).2.1)
  · intro row L
    constructor
    · simp [pad_to_max_length]
    · intro p hp hp'
      rw [pad_to_max_length, List.getD_append_right _ _ _ _ hp]
      have hlt : p - row.length < L - row.length := by omega
      rw [List.getD_eq_getElem _ _ (by simpa using hlt)]
      simp

/-- Witness for C10: padding a concrete row appends `EOS` tokens. -/
theorem rectangular_output_witness :
    (pad_to_max_length [4] 3).length = 1 + (3 - 1)
    ∧ (pad_to_max_length [4] 3).getD 2 0 = 3 := by
  have h := rectangular_output 1 1 0 1 0 F0
  exact ⟨(h.2.2.2.2 [4] 3).1, (h.2.2.2.2 [4] 3).2 2 (by decide) (by decide)⟩

end BeamSearch

